import Mathlib

set_option maxHeartbeats 1000000

/-!
Verification development for the `rbt` Go package (red-black tree ordered map,
file `rbt.go`).

Two shallow embeddings are used, both translated from the source:

* A functional binary-tree model (`rbt.Tree`) for the pure, non-mutating loops
  of the source: `FindNode`'s descent, `min`/`max`, and the parent-pointer
  traversal `First`/`Last`/`Next`/`Prev`.  The parent chain of a node is
  represented explicitly by a zipper context (`rbt.Ctx`/`rbt.Zip`): an entry
  records whether the focused node is the left or the right child of its
  parent, together with the parent's key/value/color and the sibling subtree.
  Ascending one parent link is popping one context entry, which is exactly the
  information the Go code reads through `x.parent`.

* A heap/store model (`rbt.RbTree`) for the mutating operations: nodes live in
  a list, a "pointer" is an index (`Option Nat`, `none` being Go's `nil`), and
  every assignment of the Go code becomes one store update, in source order.
  Loops are translated with explicit fuel; exhausted fuel corresponds to a Go
  execution that would not terminate (impossible on well-formed trees) and
  dereferencing an invalid pointer (a Go panic) is modelled as a no-op read of
  default values.  Go `interface{}` values are `Option V`, `none` modelling a
  nil interface value.

Note on orientation: throughout `rbt.go` the comparison convention is mirrored
with respect to the textbook one: `Insert` and `FindNode` walk to the *left*
child when the node's key is less than the searched key, so larger keys are
stored to the left; accordingly `First` (lowest key) is `root.max()` (descend
right) and `Last` is `root.min()` (descend left).  The models below reproduce
this faithfully.
-/

namespace rbt

/-- Functional view of a tree of `RbTreeNode`s: key, value (`Option V`, `none`
modelling a nil `interface{}` value) and color bit (`true` = red, as the
source's `isred`). -/
inductive Tree (K V : Type) where
  | nil : Tree K V
  | node (l : Tree K V) (k : K) (v : Option V) (c : Bool) (r : Tree K V) : Tree K V
deriving DecidableEq

variable {K V : Type}

/-- Number of nodes of a functional tree (what `Size()` reports on any tree
whose stored counter is consistent, which every operation maintains). -/
def count : Tree K V → Nat
  | Tree.nil => 0
  | Tree.node l _ _ _ r => count l + count r + 1

/-- Keys of the tree in ascending-key order under the source's mirrored
orientation: right subtree first, then the node, then the left subtree. -/
def inorderRev : Tree K V → List K
  | Tree.nil => []
  | Tree.node l k _ _ r => inorderRev r ++ k :: inorderRev l

/-- Keys in structural left-to-right order (descending key order under the
source's orientation). -/
def inorder : Tree K V → List K
  | Tree.nil => []
  | Tree.node l k _ _ r => inorder l ++ k :: inorder r

/-- Binary-search-tree ordering invariant of the source's mirrored
orientation: every key in the left subtree is greater than the node's key and
every key in the right subtree is smaller. -/
def BSTm (less : K → K → Bool) : Tree K V → Bool
  | Tree.nil => true
  | Tree.node l k _ _ r =>
      (inorderRev l).all (fun a => less k a) &&
      (inorderRev r).all (fun a => less a k) &&
      BSTm less l && BSTm less r

/-- Root-is-black red-black property (`nil` root counts as black). -/
def rootBlack : Tree K V → Bool
  | Tree.nil => true
  | Tree.node _ _ _ c _ => !c

/-- No red node has a red child (equivalently, no red node has a red parent). -/
def noRedRed : Tree K V → Bool
  | Tree.nil => true
  | Tree.node l _ _ c r =>
      (!(c && (redRoot l || redRoot r))) && noRedRed l && noRedRed r
where
  /-- Whether the root of a subtree is a red node. -/
  redRoot : Tree K V → Bool
    | Tree.nil => false
    | Tree.node _ _ _ c _ => c

/-- Black-height of a tree: `some h` when every path from the root to an empty
child position passes through the same number `h` of black nodes (empty
positions counted as one black), `none` when the black counts disagree. -/
def bh : Tree K V → Option Nat
  | Tree.nil => some 1
  | Tree.node l _ _ c r =>
      match bh l, bh r with
      | some a, some b => if a = b then some (a + (if c then 0 else 1)) else none
      | _, _ => none

/-- Conjunction of the three red-black shape invariants of the claim: black
root, no red-red violation, uniform black-height. -/
def rbInv (t : Tree K V) : Bool :=
  rootBlack t && noRedRed t && (bh t).isSome

/-- Translation of the loop of `FindNode` (rbt.go:43): descend from the root,
going to the left child when the node's key is less than the searched key, to
the right child when the searched key is less than the node's key, returning
the node when neither holds and `nil` when the descent reaches an empty
subtree.  The returned subtree stands for the returned node pointer. -/
def findNode (less : K → K → Bool) : Tree K V → K → Option (Tree K V)
  | Tree.nil, _ => none
  | Tree.node l k v c r, key =>
      if less k key then findNode less l key
      else if less key k then findNode less r key
      else some (Tree.node l k v c r)

/-- Modelled from the claim (C5): a descent that goes right when the current
node's key is less than the searched key and left when the searched key is
less than the current node's key, returning the current node when neither
comparison holds and not-found at an empty subtree. -/
def findNodeClaimed (less : K → K → Bool) : Tree K V → K → Option (Tree K V)
  | Tree.nil, _ => none
  | Tree.node l k v c r, key =>
      if less k key then findNodeClaimed less r key
      else if less key k then findNodeClaimed less l key
      else some (Tree.node l k v c r)

/-- Modelled from the amended claim (C5): the same descent with the directions
as in the source, written out from the amended sentence: go left when the
node's key is less than the searched key, right when the searched key is less
than the node's key, return the current node when neither comparison holds,
and report not-found when the descent reaches an empty subtree. -/
def findNodeAmended (less : K → K → Bool) : Tree K V → K → Option (Tree K V)
  | Tree.nil, _ => none
  | Tree.node l k v c r, key =>
      if less k key then findNodeAmended less l key
      else if less key k then findNodeAmended less r key
      else some (Tree.node l k v c r)

/-- Modelled from the claim (C4): the key of the node obtained by descending
all the way left from the root. -/
def firstClaimed : Tree K V → Option K
  | Tree.nil => none
  | Tree.node Tree.nil k _ _ _ => some k
  | Tree.node (Tree.node l' k' v' c' r') _ _ _ _ =>
      firstClaimed (Tree.node l' k' v' c' r')

/-- One entry of the parent chain of a focused node: `L` means the focus is
the left child of a parent with the given key/value/color whose right subtree
is `sib`; `R` means the focus is the right child and `sib` is the parent's
left subtree. -/
inductive Ctx (K V : Type) where
  | L (k : K) (v : Option V) (c : Bool) (sib : Tree K V)
  | R (k : K) (v : Option V) (c : Bool) (sib : Tree K V)
deriving DecidableEq

/-- A live node handle: the node's own fields (`l`, `k`, `v`, `c`, `r`) plus
its parent chain `ctx` (innermost parent first).  This is the information the
Go code reaches through a `*RbTreeNode` and its `parent` links. -/
structure Zip (K V : Type) where
  ctx : List (Ctx K V)
  l : Tree K V
  k : K
  v : Option V
  c : Bool
  r : Tree K V
deriving DecidableEq

/-- Translation of the loop of `max` (rbt.go:304) run from a focused node:
while the focus has a right child, descend into it (recording the step in the
parent chain). -/
def maxZgo : List (Ctx K V) → Tree K V → K → Option V → Bool → Tree K V → Zip K V
  | ctx, l, k, v, c, Tree.node rl rk rv rc rr =>
      maxZgo (Ctx.R k v c l :: ctx) rl rk rv rc rr
  | ctx, l, k, v, c, Tree.nil => ⟨ctx, l, k, v, c, Tree.nil⟩

/-- Translation of the loop of `min` (rbt.go:297) run from a focused node:
while the focus has a left child, descend into it. -/
def minZgo : List (Ctx K V) → Tree K V → K → Option V → Bool → Tree K V → Zip K V
  | ctx, Tree.node ll lk lv lc lr, k, v, c, r =>
      minZgo (Ctx.L k v c r :: ctx) ll lk lv lc lr
  | ctx, Tree.nil, k, v, c, r => ⟨ctx, Tree.nil, k, v, c, r⟩

/-- Translation of `First` (rbt.go:68): `nil` on an empty tree, otherwise
`root.max()`. -/
def firstZ : Tree K V → Option (Zip K V)
  | Tree.nil => none
  | Tree.node l k v c r => some (maxZgo [] l k v c r)

/-- Translation of `Last` (rbt.go:60): `nil` on an empty tree, otherwise
`root.min()`. -/
def lastZ : Tree K V → Option (Zip K V)
  | Tree.nil => none
  | Tree.node l k v c r => some (minZgo [] l k v c r)

/-- Translation of the ascent loop of `Next` (rbt.go:98-103): climb parent
links while the current node is its parent's left child (`x == y.left`); the
parent then reached is the result (`nil` if the root is passed).  `cur` is the
subtree under the node the ascent currently stands on, used to reassemble each
parent node. -/
def ascendNext : List (Ctx K V) → Tree K V → Option (Zip K V)
  | [], _ => none
  | Ctx.L k v c sib :: rest, cur => ascendNext rest (Tree.node cur k v c sib)
  | Ctx.R k v c sib :: rest, cur => some ⟨rest, sib, k, v, c, cur⟩

/-- Translation of `Next` (rbt.go:94): if the node has a left child, the
result is `x.left.max()`; otherwise ascend parent links as in the source. -/
def nextZ (z : Zip K V) : Option (Zip K V) :=
  match z.l with
  | Tree.node ll lk lv lc lr =>
      some (maxZgo (Ctx.L z.k z.v z.c z.r :: z.ctx) ll lk lv lc lr)
  | Tree.nil => ascendNext z.ctx (Tree.node Tree.nil z.k z.v z.c z.r)

/-- Translation of the ascent loop of `Prev` (rbt.go:80-85): climb parent
links while the current node is its parent's right child. -/
def ascendPrev : List (Ctx K V) → Tree K V → Option (Zip K V)
  | [], _ => none
  | Ctx.R k v c sib :: rest, cur => ascendPrev rest (Tree.node sib k v c cur)
  | Ctx.L k v c sib :: rest, cur => some ⟨rest, cur, k, v, c, sib⟩

/-- Translation of `Prev` (rbt.go:76): if the node has a right child, the
result is `x.right.min()`; otherwise ascend parent links as in the source. -/
def prevZ (z : Zip K V) : Option (Zip K V) :=
  match z.r with
  | Tree.node rl rk rv rc rr =>
      some (minZgo (Ctx.R z.k z.v z.c z.l :: z.ctx) rl rk rv rc rr)
  | Tree.nil => ascendPrev z.ctx (Tree.node z.l z.k z.v z.c Tree.nil)

/-- The keys visited by `for n := start; n != nil; n = n.Next()`, with fuel
bounding the number of visited nodes. -/
def visitNext : Nat → Option (Zip K V) → List K
  | 0, _ => []
  | _ + 1, none => []
  | fuel + 1, some z => z.k :: visitNext fuel (nextZ z)

/-- The keys visited by `for n := start; n != nil; n = n.Prev()`, with fuel
bounding the number of visited nodes. -/
def visitPrev : Nat → Option (Zip K V) → List K
  | 0, _ => []
  | _ + 1, none => []
  | fuel + 1, some z => z.k :: visitPrev fuel (prevZ z)

/-- The keys still to be visited by the `Next` traversal once the subtree the
context hangs under has been exhausted: an `L` entry contributes nothing (its
whole node was visited before descending into the left child), an `R` entry
contributes its node's key followed by its left sibling subtree. -/
def after : List (Ctx K V) → List K
  | [] => []
  | Ctx.L _ _ _ _ :: rest => after rest
  | Ctx.R k _ _ sib :: rest => k :: (inorderRev sib ++ after rest)

/-- Structural mirror image of a tree (swap every left and right subtree). -/
def mirror : Tree K V → Tree K V
  | Tree.nil => Tree.nil
  | Tree.node l k v c r => Tree.node (mirror r) k v c (mirror l)

/-- Mirror image of a parent-chain entry. -/
def mCtx : Ctx K V → Ctx K V
  | Ctx.L k v c sib => Ctx.R k v c (mirror sib)
  | Ctx.R k v c sib => Ctx.L k v c (mirror sib)

/-- Mirror image of a node handle. -/
def mZip (z : Zip K V) : Zip K V :=
  ⟨z.ctx.map mCtx, mirror z.r, z.k, z.v, z.c, mirror z.l⟩

/-- Heap-model node (`RbTreeNode` of rbt.go:15): left/right/parent links are
node indices (`none` = Go `nil`), `value` is `Option V` (`none` modelling a
nil `interface{}` value), `isred` is the color bit (`true` = red). -/
structure RbTreeNode (K V : Type) where
  left : Option Nat
  right : Option Nat
  parent : Option Nat
  key : K
  value : Option V
  isred : Bool

/-- Heap-model tree (`RbTree` of rbt.go:7): the comparison function, the node
heap (a node "pointer" is an index into `nodes`; deleted nodes stay in the
heap unreferenced, as Go's garbage-collected objects do while a caller still
holds them), the root pointer and the entry counter. -/
structure RbTree (K V : Type) where
  less : K → K → Bool
  nodes : List (RbTreeNode K V)
  root : Option Nat
  size : Int

/-- Translation of `NewRbTree` (rbt.go:29): empty heap, nil root, zero size. -/
def NewRbTree (less : K → K → Bool) : RbTree K V :=
  ⟨less, [], none, 0⟩

/-- Dereference a node index. -/
def getN (t : RbTree K V) (i : Nat) : Option (RbTreeNode K V) :=
  t.nodes[i]?

/-- Read `x.left` through an optional pointer (a nil or dangling dereference,
a Go panic, reads as `none`). -/
def leftOf (t : RbTree K V) (x : Option Nat) : Option Nat :=
  match x.bind (getN t) with
  | some n => n.left
  | none => none

/-- Read `x.right` through an optional pointer. -/
def rightOf (t : RbTree K V) (x : Option Nat) : Option Nat :=
  match x.bind (getN t) with
  | some n => n.right
  | none => none

/-- Read `x.parent` through an optional pointer. -/
def parentOf (t : RbTree K V) (x : Option Nat) : Option Nat :=
  match x.bind (getN t) with
  | some n => n.parent
  | none => none

/-- Translation of `isRed` (rbt.go:367): non-nil and red.  Also used to read
the raw `isred` field of a node known to be valid, where it coincides. -/
def isRed (t : RbTree K V) (x : Option Nat) : Bool :=
  match x.bind (getN t) with
  | some n => n.isred
  | none => false

/-- Translation of `isBlack` (rbt.go:363): nil or not red. -/
def isBlack (t : RbTree K V) (x : Option Nat) : Bool :=
  !isRed t x

/-- Update the node a pointer refers to (no-op on a nil or invalid pointer,
where the Go code would panic). -/
def updN (t : RbTree K V) (x : Option Nat) (f : RbTreeNode K V → RbTreeNode K V) :
    RbTree K V :=
  match x with
  | none => t
  | some i =>
      match t.nodes[i]? with
      | none => t
      | some n => { t with nodes := t.nodes.set i (f n) }

/-- Assignment `x.left = j`. -/
def setLeft (t : RbTree K V) (x j : Option Nat) : RbTree K V :=
  updN t x (fun n => { n with left := j })

/-- Assignment `x.right = j`. -/
def setRight (t : RbTree K V) (x j : Option Nat) : RbTree K V :=
  updN t x (fun n => { n with right := j })

/-- Assignment `x.parent = j`. -/
def setParent (t : RbTree K V) (x j : Option Nat) : RbTree K V :=
  updN t x (fun n => { n with parent := j })

/-- Assignment `x.isred = b`. -/
def setRed (t : RbTree K V) (x : Option Nat) (b : Bool) : RbTree K V :=
  updN t x (fun n => { n with isred := b })

/-- Assignment `x.Value = v`. -/
def setValue (t : RbTree K V) (x : Option Nat) (v : Option V) : RbTree K V :=
  updN t x (fun n => { n with value := v })

/-- Assignment `t.root = r`. -/
def setRoot (t : RbTree K V) (r : Option Nat) : RbTree K V :=
  { t with root := r }

/-- Translation of the loop of `FindNode` (rbt.go:43) on the heap model.
Result: `none` when the fuel runs out or an invalid pointer is dereferenced
(both impossible in a Go run on a well-formed tree), `some none` for "not
found", `some (some i)` for the node found. -/
def findLoop (t : RbTree K V) (key : K) : Nat → Option Nat → Option (Option Nat)
  | 0, _ => none
  | _ + 1, none => some none
  | fuel + 1, some i =>
      match t.nodes[i]? with
      | none => none
      | some n =>
          if t.less n.key key then findLoop t key fuel n.left
          else if t.less key n.key then findLoop t key fuel n.right
          else some (some i)

/-- Translation of `FindNode` (rbt.go:43): run the descent from the root.  The
fuel `t.nodes.length + 1` is enough for any acyclic descent. -/
def FindNode (t : RbTree K V) (key : K) : Option Nat :=
  (findLoop t key (t.nodes.length + 1) t.root).join

/-- Translation of `Find` (rbt.go:34): `FindNode` plus value projection,
`nil` when the key is not found. -/
def Find (t : RbTree K V) (key : K) : Option V :=
  match FindNode t key with
  | some i =>
      match getN t i with
      | some n => n.value
      | none => none
  | none => none

/-- Translation of the loop of `min` (rbt.go:297) on the heap model: follow
`left` links while they are non-nil. -/
def minLoop (t : RbTree K V) : Nat → Option Nat → Option Nat
  | 0, x => x
  | _ + 1, none => none
  | fuel + 1, some i =>
      match leftOf t (some i) with
      | some j => minLoop t fuel (some j)
      | none => some i

/-- Translation of the loop of `max` (rbt.go:304) on the heap model. -/
def maxLoop (t : RbTree K V) : Nat → Option Nat → Option Nat
  | 0, x => x
  | _ + 1, none => none
  | fuel + 1, some i =>
      match rightOf t (some i) with
      | some j => maxLoop t fuel (some j)
      | none => some i

/-- Translation of `Last` (rbt.go:60): `root.min()` (nil on an empty tree). -/
def Last (t : RbTree K V) : Option Nat :=
  minLoop t (t.nodes.length + 1) t.root

/-- Translation of `First` (rbt.go:68): `root.max()` (nil on an empty tree). -/
def First (t : RbTree K V) : Option Nat :=
  maxLoop t (t.nodes.length + 1) t.root

/-- Translation of `Size` (rbt.go:108): the stored counter. -/
def Size (t : RbTree K V) : Int :=
  t.size

/-- Translation of `Clear` (rbt.go:113): drop the root and zero the counter
(nodes are left to the garbage collector). -/
def Clear (t : RbTree K V) : RbTree K V :=
  { t with root := none, size := 0 }

/-- Translation of `left_rotate` (rbt.go:311), one source assignment per
step, each reading the store it is applied to. -/
def left_rotate (t : RbTree K V) (x : Option Nat) : RbTree K V :=
  let y := rightOf t x
  let t1 := setRight t x (leftOf t y)
  let t2 := if leftOf t1 y ≠ none then setParent t1 (leftOf t1 y) x else t1
  let t3 := setParent t2 y (parentOf t2 x)
  let t4 :=
    if parentOf t3 x = none then setRoot t3 y
    else if x = leftOf t3 (parentOf t3 x) then setLeft t3 (parentOf t3 x) y
    else setRight t3 (parentOf t3 x) y
  setParent (setLeft t4 y x) x y

/-- Translation of `right_rotate` (rbt.go:330). -/
def right_rotate (t : RbTree K V) (y : Option Nat) : RbTree K V :=
  let x := leftOf t y
  let t1 := setLeft t y (rightOf t x)
  let t2 := if rightOf t1 x ≠ none then setParent t1 (rightOf t1 x) y else t1
  let t3 := setParent t2 x (parentOf t2 y)
  let t4 :=
    if parentOf t3 y = none then setRoot t3 x
    else if y = leftOf t3 (parentOf t3 y) then setLeft t3 (parentOf t3 y) x
    else setRight t3 (parentOf t3 y) x
  setParent (setRight t4 x y) y x

/-- Translation of `rbtransplant` (rbt.go:349). -/
def rbtransplant (t : RbTree K V) (u v : Option Nat) : RbTree K V :=
  let t1 :=
    if parentOf t u = none then setRoot t v
    else if u = leftOf t (parentOf t u) then setLeft t (parentOf t u) v
    else setRight t (parentOf t u) v
  if v = none then t1 else setParent t1 v (parentOf t1 u)

/-- Translation of `rb_insert_fixup` (rbt.go:191).  Each loop iteration takes
one unit of fuel; on exit the root is forced black as in the source. -/
def rb_insert_fixup (t0 : RbTree K V) (x0 : Option Nat) : Nat → RbTree K V
  | 0 => t0
  | fuel + 1 =>
      let p := parentOf t0 x0
      if isRed t0 p then
        let g := parentOf t0 p
        if p = leftOf t0 g then
          let y := rightOf t0 g
          if isRed t0 y then
            rb_insert_fixup (setRed (setRed (setRed t0 p false) y false) g true) g fuel
          else
            let xr := if x0 = rightOf t0 p then p else x0
            let tr := if x0 = rightOf t0 p then left_rotate t0 p else t0
            let p2 := parentOf tr xr
            let t2 := setRed tr p2 false
            let g2 := parentOf t2 p2
            rb_insert_fixup (right_rotate (setRed t2 g2 true) g2) xr fuel
        else
          let y := leftOf t0 g
          if isRed t0 y then
            rb_insert_fixup (setRed (setRed (setRed t0 p false) y false) g true) g fuel
          else
            let xr := if x0 = leftOf t0 p then p else x0
            let tr := if x0 = leftOf t0 p then right_rotate t0 p else t0
            let p2 := parentOf tr xr
            let t2 := setRed tr p2 false
            let g2 := parentOf t2 p2
            rb_insert_fixup (left_rotate (setRed t2 g2 true) g2) xr fuel
      else
        setRed t0 t0.root false

/-- Translation of the descent loop of `Insert` (rbt.go:124), tracking the
last visited node `y`.  Result: `none` on fuel exhaustion or an invalid
pointer, `some (Sum.inl y)` when the descent reached an empty subtree under
`y`, `some (Sum.inr i)` when a node with an equal key was hit. -/
def insLoop (t : RbTree K V) (key : K) :
    Nat → Option Nat → Option Nat → Option (Sum (Option Nat) Nat)
  | 0, _, _ => none
  | _ + 1, none, y => some (Sum.inl y)
  | fuel + 1, some i, _y =>
      match t.nodes[i]? with
      | none => none
      | some n =>
          if t.less n.key key then insLoop t key fuel n.left (some i)
          else if t.less key n.key then insLoop t key fuel n.right (some i)
          else some (Sum.inr i)

/-- Translation of `Insert` (rbt.go:120).  On an equal key, overwrite the
value in place and report `false`; otherwise allocate a new red node as a
child of the last visited node (root if the tree was empty), run the
insertion fixup, bump the counter and report `true`.  A failed descent
(impossible in a Go run on a well-formed tree) leaves the tree unchanged. -/
def Insert (t : RbTree K V) (key : K) (value : Option V) : RbTree K V × Bool :=
  match insLoop t key (t.nodes.length + 1) t.root none with
  | none => (t, false)
  | some (Sum.inr i) => (setValue t (some i) value, false)
  | some (Sum.inl y) =>
      let z := t.nodes.length
      let t1 : RbTree K V :=
        { t with nodes := t.nodes ++ [⟨none, none, y, key, value, true⟩] }
      let t2 :=
        match y with
        | none => setRoot t1 (some z)
        | some yi =>
            match t1.nodes[yi]? with
            | none => t1
            | some yn =>
                if t1.less yn.key key then setLeft t1 (some yi) (some z)
                else setRight t1 (some yi) (some z)
      let t3 := rb_insert_fixup t2 (some z) (t2.nodes.length + 1)
      ({ t3 with size := t3.size + 1 }, true)

/-- The red-sibling prologue of a `rb_delete_fixup` iteration, left case
(rbt.go:231-236): read `w = parent.right`; if it is red, recolor `w` black
and the parent red, left-rotate the parent and re-read `w`.  Returns the
updated store and `w`. -/
def delFixRedSibL (t0 : RbTree K V) (parent0 : Option Nat) :
    RbTree K V × Option Nat :=
  let w0 := rightOf t0 parent0
  if isRed t0 w0 then
    let ta := left_rotate (setRed (setRed t0 w0 false) parent0 true) parent0
    (ta, rightOf ta parent0)
  else (t0, w0)

/-- The red-sibling prologue, right case (rbt.go:261-266). -/
def delFixRedSibR (t0 : RbTree K V) (parent0 : Option Nat) :
    RbTree K V × Option Nat :=
  let w0 := leftOf t0 parent0
  if isRed t0 w0 then
    let ta := right_rotate (setRed (setRed t0 w0 false) parent0 true) parent0
    (ta, leftOf ta parent0)
  else (t0, w0)

/-- The restructuring arm of a `rb_delete_fixup` iteration, left case
(rbt.go:242-257): when the sibling's far child is black, recolor the near
child black and the sibling red and right-rotate the sibling, re-reading `w`;
then transfer the parent's color to `w`, blacken `w`'s far child, blacken the
parent and left-rotate it. -/
def delFixCase2L (t1 : RbTree K V) (w1 parent0 : Option Nat) : RbTree K V :=
  let t2 :=
    if w1 ≠ none ∧ isBlack t1 (rightOf t1 w1) = true then
      right_rotate
        (setRed
          (if leftOf t1 w1 ≠ none then setRed t1 (leftOf t1 w1) false else t1)
          w1 true)
        w1
    else t1
  let w2 :=
    if w1 ≠ none ∧ isBlack t1 (rightOf t1 w1) = true then rightOf t2 parent0
    else w1
  let t3 :=
    if w2 ≠ none then
      let ta := setRed t2 w2 (isRed t2 parent0)
      if rightOf ta w2 ≠ none then setRed ta (rightOf ta w2) false else ta
    else t2
  left_rotate (setRed t3 parent0 false) parent0

/-- The restructuring arm, right case (rbt.go:272-287). -/
def delFixCase2R (t1 : RbTree K V) (w1 parent0 : Option Nat) : RbTree K V :=
  let t2 :=
    if w1 ≠ none ∧ isBlack t1 (leftOf t1 w1) = true then
      left_rotate
        (let ta := setRed t1 w1 true
         if rightOf ta w1 ≠ none then setRed ta (rightOf ta w1) false else ta)
        w1
    else t1
  let w2 :=
    if w1 ≠ none ∧ isBlack t1 (leftOf t1 w1) = true then leftOf t2 parent0
    else w1
  let t3 :=
    if w2 ≠ none then
      let ta := setRed t2 w2 (isRed t2 parent0)
      if leftOf ta w2 ≠ none then setRed ta (leftOf ta w2) false else ta
    else t2
  right_rotate (setRed t3 parent0 false) parent0

/-- Translation of `rb_delete_fixup` (rbt.go:227).  One loop iteration per
unit of fuel; the loop walks `x` (a possibly nil pointer) and its explicitly
tracked `parent` toward the root, and on exit forces `x` black when non-nil,
as in the source.  The contiguous statement blocks of each iteration are the
helper functions above. -/
def rb_delete_fixup (t0 : RbTree K V) (x0 parent0 : Option Nat) : Nat → RbTree K V
  | 0 => t0
  | fuel + 1 =>
      if x0 ≠ t0.root ∧ isBlack t0 x0 = true then
        if x0 = leftOf t0 parent0 then
          let p := delFixRedSibL t0 parent0
          if p.2 ≠ none ∧ isBlack p.1 (leftOf p.1 p.2) = true ∧
              isBlack p.1 (rightOf p.1 p.2) = true then
            let t2 := setRed p.1 p.2 true
            rb_delete_fixup t2 parent0 (parentOf t2 parent0) fuel
          else
            let t4 := delFixCase2L p.1 p.2 parent0
            rb_delete_fixup t4 t4.root parent0 fuel
        else
          let p := delFixRedSibR t0 parent0
          if p.2 ≠ none ∧ isBlack p.1 (leftOf p.1 p.2) = true ∧
              isBlack p.1 (rightOf p.1 p.2) = true then
            let t2 := setRed p.1 p.2 true
            rb_delete_fixup t2 parent0 (parentOf t2 parent0) fuel
          else
            let t4 := delFixCase2R p.1 p.2 parent0
            rb_delete_fixup t4 t4.root parent0 fuel
      else
        if x0 ≠ none then setRed t0 x0 false else t0

/-- Result of the structural phase of `DeleteNode`: the store after the
splice, the replacement pointer `x`, the removed color `y_original_isred`,
and the tracked `parent` handed to the fixup. -/
structure DStep (K V : Type) where
  tr : RbTree K V
  x : Option Nat
  yo : Bool
  par : Option Nat

/-- Translation of the structural phase of `DeleteNode` (rbt.go:158-184), one
source assignment per step in source order. -/
def delStep (t : RbTree K V) (z : Nat) : DStep K V :=
  if leftOf t (some z) = none then
    ⟨rbtransplant t (some z) (rightOf t (some z)), rightOf t (some z),
      isRed t (some z), parentOf t (some z)⟩
  else if rightOf t (some z) = none then
    ⟨rbtransplant t (some z) (leftOf t (some z)), leftOf t (some z),
      isRed t (some z), parentOf t (some z)⟩
  else
    let y := minLoop t (t.nodes.length + 1) (rightOf t (some z))
    let yo := isRed t y
    let x := rightOf t y
    if parentOf t y = some z then
      let par := if x = none then y else parentOf t (some z)
      let ta := if x = none then t else setParent t x y
      let tb := rbtransplant ta (some z) y
      let tc := setLeft tb y (leftOf tb (some z))
      let td := setParent tc (leftOf tc y) y
      ⟨setRed td y (isRed td (some z)), x, yo, par⟩
    else
      let ta := rbtransplant t y (rightOf t y)
      let tb := setRight ta y (rightOf ta (some z))
      let tc := setParent tb (rightOf tb y) y
      let td := rbtransplant tc (some z) y
      let te := setLeft td y (leftOf td (some z))
      let tf := setParent te (leftOf te y) y
      ⟨setRed tf y (isRed tf (some z)), x, yo, parentOf t (some z)⟩

/-- Translation of `DeleteNode` (rbt.go:158): structural splice, then the
deletion fixup — run only when the removed color was black AND the
replacement pointer is non-nil (the source's `!y_original_isred && x != nil`
guard at rbt.go:185) — then decrement the counter. -/
def DeleteNode (t : RbTree K V) (z : Nat) : RbTree K V :=
  let s := delStep t z
  let t' :=
    if s.yo = false ∧ s.x ≠ none then
      rb_delete_fixup s.tr s.x s.par (s.tr.nodes.length + 1)
    else s.tr
  { t' with size := t'.size - 1 }

/-- Translation of `Delete` (rbt.go:151): find the node by key and, if
present, remove it via `DeleteNode`; otherwise do nothing.  The Go function
has no return value. -/
def Delete (t : RbTree K V) (key : K) : RbTree K V :=
  match FindNode t key with
  | some z => DeleteNode t z
  | none => t

/-- Functional view of the subtree hanging under a heap pointer, for checking
the shape invariants: follow `left`/`right` links, with fuel bounding the
depth (an invalid or exhausted read yields `nil`). -/
def extract (t : RbTree K V) : Nat → Option Nat → Tree K V
  | 0, _ => Tree.nil
  | _ + 1, none => Tree.nil
  | fuel + 1, some i =>
      match t.nodes[i]? with
      | none => Tree.nil
      | some n =>
          Tree.node (extract t fuel n.left) n.key n.value n.isred
            (extract t fuel n.right)

/-- The functional tree reachable from the root of a heap-model tree. -/
def extractRoot (t : RbTree K V) : Tree K V :=
  extract t (t.nodes.length + 1) t.root

/-- Key and value of every heap node, in allocation order (deleted nodes
included: a Go caller holding a `*RbTreeNode` can still read them). -/
def kvm (t : RbTree K V) : List (K × Option V) :=
  t.nodes.map fun n => (n.key, n.value)

/-- Key of every heap node, in allocation order. -/
def keym (t : RbTree K V) : List K :=
  t.nodes.map fun n => n.key

/-- Everything of a heap node except its value: links, key and color.  Equal
`shapes` means the entire tree structure is unchanged. -/
def shapes (t : RbTree K V) : List (Option Nat × Option Nat × Option Nat × K × Bool) :=
  t.nodes.map fun n => (n.left, n.right, n.parent, n.key, n.isred)

/-- The `Value` stored in a heap node (`none` for an invalid pointer). -/
def valueAt (t : RbTree K V) (i : Nat) : Option V :=
  match getN t i with
  | some n => n.value
  | none => none

/-- Integer comparison used by all concrete example trees (the `LessFunc` of
the repository's own test file compares `int` keys with `<`). -/
def lt : Nat → Nat → Bool :=
  fun a b => decide (a < b)

/-- Concrete run: `NewRbTree(lt)` followed by `Insert 1`. -/
def sA1 : RbTree Nat Nat := (Insert (NewRbTree lt) 1 (some 10)).1

/-- Concrete run: then `Insert 2`. -/
def sA2 : RbTree Nat Nat := (Insert sA1 2 (some 20)).1

/-- Concrete run: then `Insert 3`. -/
def sA3 : RbTree Nat Nat := (Insert sA2 3 (some 30)).1

/-- Concrete run: then `Insert 4`. -/
def sA4 : RbTree Nat Nat := (Insert sA3 4 (some 40)).1

/-- Concrete run: then `Delete 4 1`, removing the black leaf holding key 1. -/
def sA5 : RbTree Nat Nat := Delete sA4 1

/-- Concrete run for the two-child deletion: keys 2, 1, 3 inserted in this
order, so node 0 (key 2) is the root and has two children. -/
def sB : RbTree Nat Nat :=
  (Insert (Insert (Insert (NewRbTree lt) 2 (some 20)).1 1 (some 10)).1 3 (some 30)).1

/-- Concrete run: a tree holding the single key 5. -/
def sC : RbTree Nat Nat := (Insert (NewRbTree lt) 5 (some 50)).1

/-- Comparison identifying keys with an equal tens digit: distinct keys can
compare as equal, as the claim about overwriting with a comparator-equal key
requires. -/
def ltd : Nat → Nat → Bool :=
  fun a b => decide (a / 10 < b / 10)

/-- Concrete run: a tree over `ltd` holding the single key 51 (so 55 is a
distinct but comparator-equal key). -/
def sE : RbTree Nat Nat := (Insert (NewRbTree ltd) 51 (some 1)).1

/-- The functional tree of the two-key run `Insert 1; Insert 2`: the root
holds key 1 and its left child holds key 2 (larger keys are stored left). -/
def tC4 : Tree Nat Nat := extractRoot sA2

/-- The functional tree of the run behind `sB`: three nodes, root key 2. -/
def tW : Tree Nat Nat := extractRoot sB

theorem list_get?_map {α β : Type} (f : α → β) :
    ∀ (l : List α) (i : Nat), (l.map f)[i]? = l[i]?.map f := by
  intro l
  induction l with
  | nil => intro i; simp
  | cons a l ih => intro i; cases i with
    | zero => simp
    | succ j => simp

theorem list_map_set {α β : Type} (f : α → β) :
    ∀ (l : List α) (i : Nat) (a : α), (l.set i a).map f = (l.map f).set i (f a) := by
  intro l
  induction l with
  | nil => intro i a; rfl
  | cons b l ih => intro i a; cases i with
    | zero => rfl
    | succ j => exact congrArg (List.cons (f b)) (ih j a)

theorem list_set_get_eq {α : Type} :
    ∀ (l : List α) (i : Nat) (a : α), l[i]? = some a → l.set i a = l := by
  intro l
  induction l with
  | nil => intro i a h; simp at h
  | cons b l ih => intro i a h; cases i with
    | zero => simp at h; simp [h]
    | succ j =>
        simp only [List.getElem?_cons_succ] at h
        exact congrArg (List.cons b) (ih j a h)

theorem updN_size (t : RbTree K V) (x : Option Nat)
    (f : RbTreeNode K V → RbTreeNode K V) : (updN t x f).size = t.size := by
  cases x with
  | none => rfl
  | some i =>
      simp only [updN]
      cases t.nodes[i]? with
      | none => rfl
      | some n => rfl

theorem updN_root (t : RbTree K V) (x : Option Nat)
    (f : RbTreeNode K V → RbTreeNode K V) : (updN t x f).root = t.root := by
  cases x with
  | none => rfl
  | some i =>
      simp only [updN]
      cases t.nodes[i]? with
      | none => rfl
      | some n => rfl

theorem updN_map {β : Type} (g : RbTreeNode K V → β) (t : RbTree K V)
    (x : Option Nat) (f : RbTreeNode K V → RbTreeNode K V)
    (hf : ∀ n, g (f n) = g n) :
    (updN t x f).nodes.map g = t.nodes.map g := by
  cases x with
  | none => rfl
  | some i =>
      simp only [updN]
      cases hn : t.nodes[i]? with
      | none => rfl
      | some n =>
          show (t.nodes.set i (f n)).map g = t.nodes.map g
          rw [list_map_set, hf]
          exact list_set_get_eq _ _ _ (by rw [list_get?_map, hn]; rfl)

@[simp] theorem size_setLeft (t : RbTree K V) (x j : Option Nat) :
    (setLeft t x j).size = t.size := updN_size t x _

@[simp] theorem size_setRight (t : RbTree K V) (x j : Option Nat) :
    (setRight t x j).size = t.size := updN_size t x _

@[simp] theorem size_setParent (t : RbTree K V) (x j : Option Nat) :
    (setParent t x j).size = t.size := updN_size t x _

@[simp] theorem size_setRed (t : RbTree K V) (x : Option Nat) (b : Bool) :
    (setRed t x b).size = t.size := updN_size t x _

@[simp] theorem size_setValue (t : RbTree K V) (x : Option Nat) (v : Option V) :
    (setValue t x v).size = t.size := updN_size t x _

@[simp] theorem root_setValue (t : RbTree K V) (x : Option Nat) (v : Option V) :
    (setValue t x v).root = t.root := updN_root t x _

@[simp] theorem size_setRoot (t : RbTree K V) (r : Option Nat) :
    (setRoot t r).size = t.size := rfl

@[simp] theorem kvm_setLeft (t : RbTree K V) (x j : Option Nat) :
    kvm (setLeft t x j) = kvm t := updN_map _ t x _ (fun _ => rfl)

@[simp] theorem kvm_setRight (t : RbTree K V) (x j : Option Nat) :
    kvm (setRight t x j) = kvm t := updN_map _ t x _ (fun _ => rfl)

@[simp] theorem kvm_setParent (t : RbTree K V) (x j : Option Nat) :
    kvm (setParent t x j) = kvm t := updN_map _ t x _ (fun _ => rfl)

@[simp] theorem kvm_setRed (t : RbTree K V) (x : Option Nat) (b : Bool) :
    kvm (setRed t x b) = kvm t := updN_map _ t x _ (fun _ => rfl)

@[simp] theorem kvm_setRoot (t : RbTree K V) (r : Option Nat) :
    kvm (setRoot t r) = kvm t := rfl

@[simp] theorem keym_setValue (t : RbTree K V) (x : Option Nat) (v : Option V) :
    keym (setValue t x v) = keym t := updN_map _ t x _ (fun _ => rfl)

@[simp] theorem shapes_setValue (t : RbTree K V) (x : Option Nat) (v : Option V) :
    shapes (setValue t x v) = shapes t := updN_map _ t x _ (fun _ => rfl)

@[simp] theorem size_left_rotate (t : RbTree K V) (x : Option Nat) :
    (left_rotate t x).size = t.size := by
  simp only [left_rotate]
  repeat' first
    | rfl
    | rw [size_setParent]
    | rw [size_setLeft]
    | rw [size_setRight]
    | rw [size_setRoot]
    | split

@[simp] theorem size_right_rotate (t : RbTree K V) (y : Option Nat) :
    (right_rotate t y).size = t.size := by
  simp only [right_rotate]
  repeat' first
    | rfl
    | rw [size_setParent]
    | rw [size_setLeft]
    | rw [size_setRight]
    | rw [size_setRoot]
    | split

@[simp] theorem size_rbtransplant (t : RbTree K V) (u v : Option Nat) :
    (rbtransplant t u v).size = t.size := by
  simp only [rbtransplant]
  repeat' first
    | rfl
    | rw [size_setParent]
    | rw [size_setLeft]
    | rw [size_setRight]
    | rw [size_setRoot]
    | split

@[simp] theorem kvm_left_rotate (t : RbTree K V) (x : Option Nat) :
    kvm (left_rotate t x) = kvm t := by
  simp only [left_rotate]
  repeat' first
    | rfl
    | rw [kvm_setParent]
    | rw [kvm_setLeft]
    | rw [kvm_setRight]
    | rw [kvm_setRoot]
    | split

@[simp] theorem kvm_right_rotate (t : RbTree K V) (y : Option Nat) :
    kvm (right_rotate t y) = kvm t := by
  simp only [right_rotate]
  repeat' first
    | rfl
    | rw [kvm_setParent]
    | rw [kvm_setLeft]
    | rw [kvm_setRight]
    | rw [kvm_setRoot]
    | split

@[simp] theorem kvm_rbtransplant (t : RbTree K V) (u v : Option Nat) :
    kvm (rbtransplant t u v) = kvm t := by
  simp only [rbtransplant]
  repeat' first
    | rfl
    | rw [kvm_setParent]
    | rw [kvm_setLeft]
    | rw [kvm_setRight]
    | rw [kvm_setRoot]
    | split

@[simp] theorem size_rb_insert_fixup :
    ∀ (fuel : Nat) (t : RbTree K V) (x : Option Nat),
      (rb_insert_fixup t x fuel).size = t.size := by
  intro fuel
  induction fuel with
  | zero => intro t x; rfl
  | succ n ih =>
      intro t x
      simp only [rb_insert_fixup]
      split
      · split <;> split <;> (rw [ih]; simp [apply_ite RbTree.size])
      · simp

@[simp] theorem size_delFixRedSibL (t : RbTree K V) (p : Option Nat) :
    (delFixRedSibL t p).1.size = t.size := by
  simp only [delFixRedSibL]
  split <;> simp

@[simp] theorem size_delFixRedSibR (t : RbTree K V) (p : Option Nat) :
    (delFixRedSibR t p).1.size = t.size := by
  simp only [delFixRedSibR]
  split <;> simp

@[simp] theorem kvm_delFixRedSibL (t : RbTree K V) (p : Option Nat) :
    kvm (delFixRedSibL t p).1 = kvm t := by
  simp only [delFixRedSibL]
  split <;> simp

@[simp] theorem kvm_delFixRedSibR (t : RbTree K V) (p : Option Nat) :
    kvm (delFixRedSibR t p).1 = kvm t := by
  simp only [delFixRedSibR]
  split <;> simp

@[simp] theorem size_delFixCase2L (t : RbTree K V) (w p : Option Nat) :
    (delFixCase2L t w p).size = t.size := by
  simp only [delFixCase2L]
  repeat' first
    | rfl
    | rw [size_setRed]
    | rw [size_left_rotate]
    | rw [size_right_rotate]
    | split

@[simp] theorem size_delFixCase2R (t : RbTree K V) (w p : Option Nat) :
    (delFixCase2R t w p).size = t.size := by
  simp only [delFixCase2R]
  repeat' first
    | rfl
    | rw [size_setRed]
    | rw [size_left_rotate]
    | rw [size_right_rotate]
    | split

@[simp] theorem kvm_delFixCase2L (t : RbTree K V) (w p : Option Nat) :
    kvm (delFixCase2L t w p) = kvm t := by
  simp only [delFixCase2L]
  repeat' first
    | rfl
    | rw [kvm_setRed]
    | rw [kvm_left_rotate]
    | rw [kvm_right_rotate]
    | split

@[simp] theorem kvm_delFixCase2R (t : RbTree K V) (w p : Option Nat) :
    kvm (delFixCase2R t w p) = kvm t := by
  simp only [delFixCase2R]
  repeat' first
    | rfl
    | rw [kvm_setRed]
    | rw [kvm_left_rotate]
    | rw [kvm_right_rotate]
    | split

@[simp] theorem size_rb_delete_fixup :
    ∀ (fuel : Nat) (t : RbTree K V) (x p : Option Nat),
      (rb_delete_fixup t x p fuel).size = t.size := by
  intro fuel
  induction fuel with
  | zero => intro t x p; rfl
  | succ n ih =>
      intro t x p
      simp only [rb_delete_fixup]
      split
      · split <;> split <;> (rw [ih]; simp)
      · split <;> simp

@[simp] theorem kvm_rb_delete_fixup :
    ∀ (fuel : Nat) (t : RbTree K V) (x p : Option Nat),
      kvm (rb_delete_fixup t x p fuel) = kvm t := by
  intro fuel
  induction fuel with
  | zero => intro t x p; rfl
  | succ n ih =>
      intro t x p
      simp only [rb_delete_fixup]
      split
      · split <;> split <;> (rw [ih]; simp)
      · split <;> simp

@[simp] theorem size_delStep (t : RbTree K V) (z : Nat) :
    (delStep t z).tr.size = t.size := by
  simp only [delStep]
  split
  · simp
  · split
    · simp
    · split <;> simp [apply_ite RbTree.size]

@[simp] theorem kvm_delStep (t : RbTree K V) (z : Nat) :
    kvm (delStep t z).tr = kvm t := by
  simp only [delStep]
  split
  · simp
  · split
    · simp
    · split <;> simp [apply_ite kvm]

@[simp] theorem kvm_withSize (t : RbTree K V) (s : Int) :
    kvm { t with size := s } = kvm t := rfl

theorem size_DeleteNode (t : RbTree K V) (z : Nat) :
    (DeleteNode t z).size = t.size - 1 := by
  simp only [DeleteNode]
  have h : ∀ (u : RbTree K V) (s : Int), ({ u with size := s } : RbTree K V).size = s :=
    fun u s => rfl
  rw [h]
  split
  · rw [size_rb_delete_fixup, size_delStep]
  · rw [size_delStep]

theorem kvm_DeleteNode (t : RbTree K V) (z : Nat) :
    kvm (DeleteNode t z) = kvm t := by
  simp only [DeleteNode]
  rw [kvm_withSize]
  split
  · rw [kvm_rb_delete_fixup, kvm_delStep]
  · rw [kvm_delStep]

theorem findLoop_insLoop (t : RbTree K V) (key : K) :
    ∀ (fuel : Nat) (x y : Option Nat),
      (∀ i, findLoop t key fuel x = some (some i) →
          insLoop t key fuel x y = some (Sum.inr i)) ∧
      (findLoop t key fuel x = some none →
          ∃ y', insLoop t key fuel x y = some (Sum.inl y')) := by
  intro fuel
  induction fuel with
  | zero =>
      intro x y
      exact ⟨(fun i h => by cases h), (fun h => by cases h)⟩
  | succ n ih =>
      intro x y
      cases x with
      | none =>
          refine ⟨fun i h => ?_, fun _ => ⟨y, rfl⟩⟩
          simp [findLoop] at h
      | some j =>
          simp only [findLoop, insLoop]
          cases hn : t.nodes[j]? with
          | none => exact ⟨(fun i h => by cases h), (fun h => by cases h)⟩
          | some nd =>
              by_cases h1 : t.less nd.key key = true
              · simpa [h1] using ih nd.left (some j)
              · by_cases h2 : t.less key nd.key = true
                · simpa [h1, h2] using ih nd.right (some j)
                · refine ⟨fun i h => ?_, fun h => ?_⟩
                  · simp [h1, h2] at h
                    simp [h1, h2, h]
                  · simp [h1, h2] at h

theorem findLoop_some_valid (t : RbTree K V) (key : K) :
    ∀ (fuel : Nat) (x : Option Nat) (i : Nat),
      findLoop t key fuel x = some (some i) → ∃ n, t.nodes[i]? = some n := by
  intro fuel
  induction fuel with
  | zero => intro x i h; cases h
  | succ n ih =>
      intro x i h
      cases x with
      | none => simp [findLoop] at h
      | some j =>
          simp only [findLoop] at h
          cases hn : t.nodes[j]? with
          | none => rw [hn] at h; cases h
          | some nd =>
              rw [hn] at h
              by_cases h1 : t.less nd.key key = true
              · exact ih nd.left i (by simpa [h1] using h)
              · by_cases h2 : t.less key nd.key = true
                · exact ih nd.right i (by simpa [h1, h2] using h)
                · simp [h1, h2] at h
                  exact ⟨nd, h ▸ hn⟩

theorem FindNode_eq_some (t : RbTree K V) (key : K) (i : Nat)
    (h : FindNode t key = some i) :
    findLoop t key (t.nodes.length + 1) t.root = some (some i) := by
  unfold FindNode at h
  cases hf : findLoop t key (t.nodes.length + 1) t.root with
  | none => rw [hf] at h; cases h
  | some o =>
      cases o with
      | none => rw [hf] at h; cases h
      | some j => rw [hf] at h; simp [Option.join] at h; simp [h]

theorem Insert_hit (t : RbTree K V) (key : K) (v : Option V) (i : Nat)
    (h : FindNode t key = some i) :
    Insert t key v = (setValue t (some i) v, false) := by
  have hf := FindNode_eq_some t key i h
  have hi := (findLoop_insLoop t key (t.nodes.length + 1) t.root none).1 i hf
  simp only [Insert, hi]

theorem Insert_miss (t : RbTree K V) (key : K) (v : Option V)
    (h : findLoop t key (t.nodes.length + 1) t.root = some none) :
    (Insert t key v).2 = true ∧ (Insert t key v).1.size = t.size + 1 := by
  obtain ⟨y', hy⟩ := (findLoop_insLoop t key (t.nodes.length + 1) t.root none).2 h
  simp only [Insert, hy]
  have hs : ∀ (u : RbTree K V) (s : Int), ({ u with size := s } : RbTree K V).size = s :=
    fun u s => rfl
  refine ⟨trivial, ?_⟩
  rw [hs, size_rb_insert_fixup]
  cases y' with
  | none => rfl
  | some yi =>
      simp only []
      cases hg : (({ t with nodes := t.nodes ++ [⟨none, none, some yi, key, v, true⟩] } :
          RbTree K V)).nodes[yi]? with
      | none => simp [hg]
      | some yn => simp [hg, apply_ite RbTree.size]

theorem list_get?_set_self {α : Type} :
    ∀ (l : List α) (i : Nat) (a b : α),
      l[i]? = some b → (l.set i a)[i]? = some a := by
  intro l
  induction l with
  | nil => intro i a b h; simp at h
  | cons c l ih => intro i a b h; cases i with
    | zero => simp
    | succ j =>
        simp only [List.getElem?_cons_succ] at h
        simpa using ih j a b h

theorem inorderRev_length (t : Tree K V) : (inorderRev t).length = count t := by
  induction t with
  | nil => rfl
  | node l k v c r ihl ihr =>
      simp only [inorderRev, count, List.length_append, List.length_cons, ihl, ihr]
      omega

theorem inorder_eq_reverse (t : Tree K V) : inorder t = (inorderRev t).reverse := by
  induction t with
  | nil => rfl
  | node l k v c r ihl ihr => simp [inorder, inorderRev, ihl, ihr]

theorem visitNext_none (fuel : Nat) :
    visitNext fuel (none : Option (Zip K V)) = [] := by
  cases fuel <;> rfl

theorem visit_main :
    ∀ (n : Nat),
      (∀ (ctx : List (Ctx K V)) (cur : Tree K V) (fuel : Nat),
          (after ctx).length = n → n ≤ fuel →
          visitNext fuel (ascendNext ctx cur) = after ctx) ∧
      (∀ (r l : Tree K V) (k : K) (v : Option V) (c : Bool)
          (ctx : List (Ctx K V)) (fuel : Nat),
          (inorderRev (Tree.node l k v c r) ++ after ctx).length = n → n ≤ fuel →
          visitNext fuel (some (maxZgo ctx l k v c r)) =
            inorderRev (Tree.node l k v c r) ++ after ctx) := by
  intro n
  induction n using Nat.strong_induction_on with
  | _ n ih =>
    constructor
    · intro ctx
      induction ctx with
      | nil =>
          intro cur fuel h hf
          rw [show ascendNext ([] : List (Ctx K V)) cur = none from rfl, visitNext_none]
          rfl
      | cons e rest ihc =>
          cases e with
          | L k v c sib =>
              intro cur fuel h hf
              exact ihc (Tree.node cur k v c sib) fuel h hf
          | R k v c sib =>
              intro cur fuel h hf
              simp only [after, List.length_cons] at h
              cases fuel with
              | zero => omega
              | succ fl =>
                  simp only [after]
                  show k :: visitNext fl
                      (nextZ ⟨rest, sib, k, v, c, cur⟩) =
                    k :: (inorderRev sib ++ after rest)
                  cases sib with
                  | nil =>
                      show k :: visitNext fl (ascendNext rest (Tree.node Tree.nil k v c cur)) =
                        k :: (inorderRev Tree.nil ++ after rest)
                      have hm : (after rest).length < n := by
                        simp only [inorderRev, List.nil_append] at h; omega
                      rw [(ih _ hm).1 rest (Tree.node Tree.nil k v c cur) fl rfl
                        (by simp only [inorderRev, List.nil_append] at h; omega)]
                      simp [inorderRev]
                  | node sl sk sv sc sr =>
                      show k :: visitNext fl
                          (some (maxZgo (Ctx.L k v c cur :: rest) sl sk sv sc sr)) =
                        k :: (inorderRev (Tree.node sl sk sv sc sr) ++ after rest)
                      have hlen : (inorderRev (Tree.node sl sk sv sc sr) ++
                          after (Ctx.L k v c cur :: rest)).length =
                          (inorderRev (Tree.node sl sk sv sc sr) ++ after rest).length := by
                        simp [after]
                      have hm : (inorderRev (Tree.node sl sk sv sc sr) ++
                          after (Ctx.L k v c cur :: rest)).length < n := by
                        rw [hlen]; omega
                      rw [(ih _ hm).2 sr sl sk sv sc (Ctx.L k v c cur :: rest) fl rfl
                        (by rw [hlen]; omega)]
                      simp [after]
    · intro r
      induction r with
      | nil =>
          intro l k v c ctx fuel h hf
          simp only [inorderRev, List.nil_append, List.cons_append,
            List.length_cons] at h
          cases fuel with
          | zero => omega
          | succ fl =>
              show visitNext (fl + 1) (some (⟨ctx, l, k, v, c, Tree.nil⟩ : Zip K V)) =
                inorderRev (Tree.node l k v c Tree.nil) ++ after ctx
              simp only [inorderRev, List.nil_append]
              show k :: visitNext fl (nextZ ⟨ctx, l, k, v, c, Tree.nil⟩) =
                k :: (inorderRev l ++ after ctx)
              cases l with
              | nil =>
                  show k :: visitNext fl (ascendNext ctx
                      (Tree.node Tree.nil k v c Tree.nil)) =
                    k :: (inorderRev Tree.nil ++ after ctx)
                  have hm : (after ctx).length < n := by
                    simp only [inorderRev, List.nil_append] at h; omega
                  rw [(ih _ hm).1 ctx (Tree.node Tree.nil k v c Tree.nil) fl rfl
                    (by simp only [inorderRev, List.nil_append] at h; omega)]
                  simp [inorderRev]
              | node ll lk lv lc lr =>
                  show k :: visitNext fl
                      (some (maxZgo (Ctx.L k v c Tree.nil :: ctx) ll lk lv lc lr)) =
                    k :: (inorderRev (Tree.node ll lk lv lc lr) ++ after ctx)
                  have hlen : (inorderRev (Tree.node ll lk lv lc lr) ++
                      after (Ctx.L k v c Tree.nil :: ctx)).length =
                      (inorderRev (Tree.node ll lk lv lc lr) ++ after ctx).length := by
                    simp [after]
                  have hm : (inorderRev (Tree.node ll lk lv lc lr) ++
                      after (Ctx.L k v c Tree.nil :: ctx)).length < n := by
                    rw [hlen]; omega
                  rw [(ih _ hm).2 lr ll lk lv lc (Ctx.L k v c Tree.nil :: ctx) fl rfl
                    (by rw [hlen]; omega)]
                  simp [after]
      | node rl rk rv rc rr ihrl ihrr =>
          intro l k v c ctx fuel h hf
          have hxx : inorderRev (Tree.node l k v c (Tree.node rl rk rv rc rr)) ++
              after ctx =
              inorderRev (Tree.node rl rk rv rc rr) ++ after (Ctx.R k v c l :: ctx) := by
            simp [inorderRev, after]
          show visitNext fuel
              (some (maxZgo (Ctx.R k v c l :: ctx) rl rk rv rc rr)) =
            inorderRev (Tree.node l k v c (Tree.node rl rk rv rc rr)) ++ after ctx
          rw [hxx]
          exact ihrr rl rk rv rc (Ctx.R k v c l :: ctx) fuel (by rw [← hxx]; exact h) hf

theorem visitNext_first (t : Tree K V) (fuel : Nat) (hf : count t ≤ fuel) :
    visitNext fuel (firstZ t) = inorderRev t := by
  cases t with
  | nil => exact visitNext_none fuel
  | node l k v c r =>
      have h1 : (inorderRev (Tree.node l k v c r) ++
          after ([] : List (Ctx K V))).length = count (Tree.node l k v c r) := by
        simp [after, inorderRev_length]
      have h2 := (visit_main (count (Tree.node l k v c r))).2 r l k v c [] fuel h1 hf
      simpa [firstZ, after] using h2

theorem count_mirror (t : Tree K V) : count (mirror t) = count t := by
  induction t with
  | nil => rfl
  | node l k v c r ihl ihr => simp [mirror, count, ihl, ihr]; omega

theorem inorderRev_mirror (t : Tree K V) : inorderRev (mirror t) = inorder t := by
  induction t with
  | nil => rfl
  | node l k v c r ihl ihr => simp [mirror, inorderRev, inorder, ihl, ihr]

theorem minZgo_mirror :
    ∀ (l : Tree K V) (ctx : List (Ctx K V)) (k : K) (v : Option V) (c : Bool)
      (r : Tree K V),
      mZip (minZgo ctx l k v c r) =
        maxZgo (ctx.map mCtx) (mirror r) k v c (mirror l) := by
  intro l
  induction l with
  | nil => intro ctx k v c r; rfl
  | node ll lk lv lc lr ihll ihlr =>
      intro ctx k v c r
      show mZip (minZgo (Ctx.L k v c r :: ctx) ll lk lv lc lr) =
        maxZgo (ctx.map mCtx) (mirror r) k v c (mirror (Tree.node ll lk lv lc lr))
      rw [ihll]
      rfl

theorem ascendPrev_mirror :
    ∀ (ctx : List (Ctx K V)) (cur : Tree K V),
      (ascendPrev ctx cur).map mZip = ascendNext (ctx.map mCtx) (mirror cur) := by
  intro ctx
  induction ctx with
  | nil => intro cur; rfl
  | cons e rest ihc =>
      cases e with
      | R k v c sib =>
          intro cur
          show (ascendPrev rest (Tree.node sib k v c cur)).map mZip =
            ascendNext (Ctx.L k v c (mirror sib) :: rest.map mCtx) (mirror cur)
          rw [ihc (Tree.node sib k v c cur)]
          rfl
      | L k v c sib => intro cur; rfl

theorem prevZ_mirror (z : Zip K V) : (prevZ z).map mZip = nextZ (mZip z) := by
  obtain ⟨ctx, l, k, v, c, r⟩ := z
  cases r with
  | nil =>
      show (ascendPrev ctx (Tree.node l k v c Tree.nil)).map mZip =
        nextZ (mZip ⟨ctx, l, k, v, c, Tree.nil⟩)
      rw [ascendPrev_mirror]
      rfl
  | node rl rk rv rc rr =>
      show (some (minZgo (Ctx.R k v c l :: ctx) rl rk rv rc rr)).map mZip =
        nextZ (mZip ⟨ctx, l, k, v, c, Tree.node rl rk rv rc rr⟩)
      show some (mZip (minZgo (Ctx.R k v c l :: ctx) rl rk rv rc rr)) = _
      rw [minZgo_mirror]
      rfl

theorem visitPrev_mirror :
    ∀ (fuel : Nat) (oz : Option (Zip K V)),
      visitPrev fuel oz = visitNext fuel (oz.map mZip) := by
  intro fuel
  induction fuel with
  | zero => intro oz; rfl
  | succ n ihf =>
      intro oz
      cases oz with
      | none => rfl
      | some z =>
          show z.k :: visitPrev n (prevZ z) = (mZip z).k :: visitNext n (nextZ (mZip z))
          rw [ihf (prevZ z), prevZ_mirror]
          rfl

theorem lastZ_mirror (t : Tree K V) : (lastZ t).map mZip = firstZ (mirror t) := by
  cases t with
  | nil => rfl
  | node l k v c r =>
      show (some (minZgo [] l k v c r)).map mZip = firstZ (mirror (Tree.node l k v c r))
      show some (mZip (minZgo [] l k v c r)) = _
      rw [minZgo_mirror]
      rfl

theorem visitPrev_last (t : Tree K V) (fuel : Nat) (hf : count t ≤ fuel) :
    visitPrev fuel (lastZ t) = (inorderRev t).reverse := by
  rw [visitPrev_mirror, lastZ_mirror,
    visitNext_first (mirror t) fuel (by rw [count_mirror]; exact hf),
    inorderRev_mirror, ← inorder_eq_reverse]

theorem pairwise_inorderRev (less : K → K → Bool)
    (htr : ∀ a b c, less a b = true → less b c = true → less a c = true) :
    ∀ (t : Tree K V), BSTm less t = true →
      List.Pairwise (fun a b => less a b = true) (inorderRev t) := by
  intro t
  induction t with
  | nil => intro _; simp [inorderRev]
  | node l k v c r ihl ihr =>
      intro h
      simp only [BSTm, Bool.and_eq_true, List.all_eq_true] at h
      obtain ⟨⟨⟨hl, hr⟩, hbl⟩, hbr⟩ := h
      simp only [inorderRev]
      rw [List.pairwise_append]
      refine ⟨ihr hbr, ?_, ?_⟩
      · rw [List.pairwise_cons]
        exact ⟨fun b hb => hl b hb, ihl hbl⟩
      · intro a ha b hb
        rcases List.mem_cons.mp hb with rfl | hb'
        · exact hr a ha
        · exact htr a k b (hr a ha) (hl b hb')

theorem getN_updN_self (t : RbTree K V) (i : Nat)
    (f : RbTreeNode K V → RbTreeNode K V) :
    getN (updN t (some i) f) i = (getN t i).map f := by
  cases hn : t.nodes[i]? with
  | none =>
      have h1 : updN t (some i) f = t := by simp [updN, hn]
      rw [h1]
      show t.nodes[i]? = (t.nodes[i]?).map f
      rw [hn]; rfl
  | some n =>
      have h1 : updN t (some i) f = { t with nodes := t.nodes.set i (f n) } := by
        simp [updN, hn]
      rw [h1]
      show (t.nodes.set i (f n))[i]? = (t.nodes[i]?).map f
      rw [list_get?_set_self _ _ _ _ hn, hn]
      rfl

theorem getN_setValue_self (t : RbTree K V) (i : Nat) (v : Option V) :
    getN (setValue t (some i) v) i = (getN t i).map (fun n => { n with value := v }) :=
  getN_updN_self t i _

/-- Claim C1: the claim says the red-black invariants hold after every public
operation on every reachable tree.  The code violates it: after the concrete
run `Insert 1; Insert 2; Insert 3; Insert 4` all three shape invariants hold,
but the subsequent `Delete 1` removes a black leaf whose replacement child is
nil, so `DeleteNode` skips `rb_delete_fixup` (the `x != nil` guard at
rbt.go:185) and black-height uniformity is broken. -/
theorem C1_invariants_broken_by_delete :
    rbInv (extractRoot sA4) = true ∧ rbInv (extractRoot sA5) = false := by
  exact ⟨by decide, by decide⟩

/-- Claim C2 (counterexample): in the concrete run `sB` node 0 (key 2, the
root) has two children; `DeleteNode sB 0` leaves node 0 holding its own key 2
— not the neighbor's key 1 as the claim's copy-relocation semantics would
give — and the neighbor node 1 is not destroyed: it is transplanted into the
removed node's position and becomes the root. -/
theorem C2_counterexample :
    leftOf sB (some 0) ≠ none ∧ rightOf sB (some 0) ≠ none ∧
    (getN (DeleteNode sB 0) 0).map (fun n => n.key) = some 2 ∧
    (getN (DeleteNode sB 0) 0).map (fun n => n.key) ≠ some 1 ∧
    (getN (DeleteNode sB 0) 1).map (fun n => n.key) = some 1 ∧
    (DeleteNode sB 0).root = some 1 := by
  exact ⟨by decide, by decide, by decide, by decide, by decide, by decide⟩

/-- Claim C2 (amended): `DeleteNode` never copies or relocates any key or
value — every heap node's key and value are exactly what they were before the
call; the two-child case structurally transplants the neighbor node (which
keeps its own key/value) into the removed node's position. -/
theorem C2_amended_no_kv_copy (t : RbTree K V) (z : Nat) :
    kvm (DeleteNode t z) = kvm t :=
  kvm_DeleteNode t z

/-- Claim C3: starting at First and repeatedly calling Next visits exactly
`count t` nodes (the `Size()` counter equals the node count on every
reachable tree) in strictly ascending key order with respect to the
comparison — given the binary-search-tree ordering every reachable tree has
and a transitive comparison — and this sequence equals the reverse of the
sequence obtained from Last and repeated Prev. -/
theorem C3_round_trip (less : K → K → Bool) (t : Tree K V)
    (hbst : BSTm less t = true)
    (htr : ∀ a b c, less a b = true → less b c = true → less a c = true) :
    (visitNext (count t) (firstZ t)).length = count t ∧
    List.Pairwise (fun a b => less a b = true) (visitNext (count t) (firstZ t)) ∧
    visitNext (count t) (firstZ t) = (visitPrev (count t) (lastZ t)).reverse := by
  rw [visitNext_first t (count t) (Nat.le_refl _),
    visitPrev_last t (count t) (Nat.le_refl _)]
  exact ⟨inorderRev_length t, pairwise_inorderRev less htr t hbst,
    (List.reverse_reverse _).symm⟩

/-- Claim C3 (witness): the round-trip property holds on the concrete
three-node tree built by `Insert 2; Insert 1; Insert 3`. -/
theorem C3_round_trip_witness :
    (visitNext (count tW) (firstZ tW)).length = count tW ∧
    List.Pairwise (fun a b => lt a b = true) (visitNext (count tW) (firstZ tW)) ∧
    visitNext (count tW) (firstZ tW) = (visitPrev (count tW) (lastZ tW)).reverse :=
  C3_round_trip lt tW (by decide)
    (fun a b c h1 h2 => by
      simp only [lt, decide_eq_true_eq] at h1 h2 ⊢
      omega)

/-- Claim C4 (counterexample): in the concrete two-key run `Insert 1;
Insert 2` the root holds key 1 and its left child key 2; the code's First
(which is `root.max()`, descending right) returns the root, key 1, while the
claim's "descend all the way left from the root" would return key 2. -/
theorem C4_counterexample :
    (firstZ tC4).map Zip.k = some 1 ∧ firstClaimed tC4 = some 2 ∧
    (firstZ tC4).map Zip.k ≠ firstClaimed tC4 := by
  exact ⟨by decide, by decide, by decide⟩

/-- Claim C4 (amended): First descends all the way right from the root via
`max` — yielding the node whose key is first in ascending order (the head of
the ascending traversal) — and Last descends all the way left via `min`
(yielding the head of the descending traversal); `Next(n)` is the maximum of
`n`'s left subtree when `n` has a left child, and otherwise the node reached
by ascending parent links until moving up from a right-child position (none
if the root is reached from left-child positions all the way up). -/
theorem C4_amended (t : Tree K V) (hne : t ≠ Tree.nil) :
    (firstZ t).map Zip.k = (inorderRev t).head? ∧
    (lastZ t).map Zip.k = (inorder t).head? ∧
    (∀ z : Zip K V,
        (z.l = Tree.nil →
          nextZ z = ascendNext z.ctx (Tree.node Tree.nil z.k z.v z.c z.r)) ∧
        (∀ ll lk lv lc lr, z.l = Tree.node ll lk lv lc lr →
          nextZ z =
            some (maxZgo (Ctx.L z.k z.v z.c z.r :: z.ctx) ll lk lv lc lr))) := by
  cases t with
  | nil => exact absurd rfl hne
  | node l k v c r =>
      have hv := visitNext_first (Tree.node l k v c r)
        (count (Tree.node l k v c r)) (Nat.le_refl _)
      have hp := visitPrev_last (Tree.node l k v c r)
        (count (Tree.node l k v c r)) (Nat.le_refl _)
      refine ⟨?_, ?_, ?_⟩
      · rw [← hv]; rfl
      · rw [inorder_eq_reverse, ← hp]; rfl
      · intro z
        obtain ⟨zctx, zl, zk, zv, zc, zr⟩ := z
        constructor
        · intro hl; subst hl; rfl
        · intro ll lk lv lc lr hl; subst hl; rfl

/-- Claim C4 (witness): the amended First characterization at the concrete
tree `tC4`. -/
theorem C4_amended_witness :
    (firstZ tC4).map Zip.k = (inorderRev tC4).head? :=
  (C4_amended tC4 (by decide)).1

/-- Claim C5 (counterexample): searching key 2 in the concrete tree of the
run `Insert 1; Insert 2` (root key 1, left child key 2): the code's FindNode
descends left when the node's key is less than the searched key and finds
node 2, while the claim's descent ("go right when the node's key is less")
reaches an empty subtree and reports not-found. -/
theorem C5_counterexample :
    findNode lt tC4 2 ≠ findNodeClaimed lt tC4 2 ∧
    findNode lt tC4 2 = some (Tree.node Tree.nil 2 (some 20) true Tree.nil) ∧
    findNodeClaimed lt tC4 2 = none := by
  exact ⟨by decide, by decide, by decide⟩

/-- Claim C5 (amended): FindNode descends from the root going left when the
current node's key is less than the searched key and right when the searched
key is less than the current node's key, returns the current node when
neither comparison holds, and returns not-found when the descent reaches an
empty subtree. -/
theorem C5_amended_descent (less : K → K → Bool) :
    ∀ (t : Tree K V) (key : K), findNode less t key = findNodeAmended less t key := by
  intro t
  induction t with
  | nil => intro key; rfl
  | node l k v c r ihl ihr =>
      intro key
      simp only [findNode, findNodeAmended, ihl, ihr]

/-- Claim C6 (counterexample): `Delete` (rbt.go:151) has no return value, so
it does not report whether a removal occurred: no function of its result can
recover that information, because deleting key 5 from the one-node tree `sC`
(a removal) and deleting 5 again from the result (a no-op) produce the very
same tree. -/
theorem C6_counterexample :
    (FindNode sC 5).isSome = true ∧
    (FindNode (Delete sC 5) 5).isSome = false ∧
    Delete (Delete sC 5) 5 = Delete sC 5 ∧
    ¬ ∃ decode : RbTree Nat Nat → Bool,
        ∀ (s : RbTree Nat Nat) (k : Nat),
          decode (Delete s k) = (FindNode s k).isSome := by
  refine ⟨rfl, rfl, rfl, ?_⟩
  rintro ⟨dec, hdec⟩
  have h1 : dec (Delete sC 5) = true := (hdec sC 5).trans rfl
  have h2 : dec (Delete sC 5) = false := by
    have h3 := hdec (Delete sC 5) 5
    rw [show Delete (Delete sC 5) 5 = Delete sC 5 from rfl] at h3
    exact h3.trans rfl
  rw [h1] at h2
  exact Bool.noConfusion h2

/-- Claim C6 (amended): Delete(key) finds the node by key and, if present,
removes it via DeleteNode (decrementing Size by one); when no node with the
key exists it is a no-op rather than an error.  Delete returns nothing, so it
does not itself report whether a removal occurred. -/
theorem C6_amended_delete (t : RbTree K V) (key : K) :
    (FindNode t key = none → Delete t key = t) ∧
    (∀ z, FindNode t key = some z →
        Delete t key = DeleteNode t z ∧ (Delete t key).size = t.size - 1) := by
  constructor
  · intro h
    simp only [Delete, h]
  · intro z h
    refine ⟨?_, ?_⟩ <;> simp only [Delete, h]
    exact size_DeleteNode t z

/-- Claim C6 (witness): the amended behavior at the concrete one-node tree
`sC`: deleting the present key 5 runs DeleteNode on node 0 and decrements the
size; deleting the absent key 7 is a no-op. -/
theorem C6_amended_witness :
    (Delete sC 5 = DeleteNode sC 0 ∧ (Delete sC 5).size = sC.size - 1) ∧
    Delete sC 7 = sC :=
  ⟨(C6_amended_delete sC 5).2 0 (by decide), (C6_amended_delete sC 7).1 (by decide)⟩

/-- Claim C7: when a node with an equal key exists, Insert overwrites that
node's value in place, returns false, and leaves Size, the root and the
entire tree structure (all links, keys and colors) unchanged; when the
descent terminates with no equal key found, Insert creates a new entry,
returns true and increments Size by one. -/
theorem C7_insert (t : RbTree K V) (key : K) (v : Option V) :
    (∀ i, FindNode t key = some i →
        (Insert t key v).2 = false ∧
        (Insert t key v).1.size = t.size ∧
        (Insert t key v).1.root = t.root ∧
        shapes (Insert t key v).1 = shapes t ∧
        (getN (Insert t key v).1 i).map (fun n => n.value) = some v) ∧
    (findLoop t key (t.nodes.length + 1) t.root = some none →
        (Insert t key v).2 = true ∧ (Insert t key v).1.size = t.size + 1) := by
  constructor
  · intro i h
    have hh := Insert_hit t key v i h
    rw [hh]
    obtain ⟨n, hn⟩ := findLoop_some_valid t key _ _ i (FindNode_eq_some t key i h)
    refine ⟨rfl, size_setValue t (some i) v, root_setValue t (some i) v,
      shapes_setValue t (some i) v, ?_⟩
    show (getN (setValue t (some i) v) i).map (fun n => n.value) = some v
    rw [getN_setValue_self, show getN t i = some n from hn]
    rfl
  · exact Insert_miss t key v

/-- Claim C7 (witness): at the concrete one-node tree `sC`, inserting the
present key 5 overwrites in place and reports false; inserting the absent
key 7 creates an entry, reports true, and bumps the size. -/
theorem C7_insert_witness :
    ((Insert sC 5 (some 99)).2 = false ∧
      (Insert sC 5 (some 99)).1.size = sC.size ∧
      (Insert sC 5 (some 99)).1.root = sC.root ∧
      shapes (Insert sC 5 (some 99)).1 = shapes sC ∧
      (getN (Insert sC 5 (some 99)).1 0).map (fun n => n.value) = some (some 99)) ∧
    ((Insert sC 7 (some 70)).2 = true ∧
      (Insert sC 7 (some 70)).1.size = sC.size + 1) :=
  ⟨(C7_insert sC 5 (some 99)).1 0 (by decide),
    (C7_insert sC 7 (some 70)).2 (by decide)⟩

/-- Claim C8: when Insert finds an existing node with a comparator-equal key,
only that node's Value field is replaced: the stored keys of all heap nodes —
in particular the hit node's original key object — are untouched, so `Key()`
afterwards still returns the originally inserted key even when the
overwriting call passed a distinct but comparator-equal key. -/
theorem C8_key_untouched (t : RbTree K V) (key : K) (v : Option V) (i : Nat)
    (h : FindNode t key = some i) :
    (Insert t key v).2 = false ∧
    keym (Insert t key v).1 = keym t ∧
    (getN (Insert t key v).1 i).map (fun n => n.value) = some v := by
  have hh := Insert_hit t key v i h
  rw [hh]
  obtain ⟨n, hn⟩ := findLoop_some_valid t key _ _ i (FindNode_eq_some t key i h)
  refine ⟨rfl, keym_setValue t (some i) v, ?_⟩
  show (getN (setValue t (some i) v) i).map (fun n => n.value) = some v
  rw [getN_setValue_self, show getN t i = some n from hn]
  rfl

/-- Claim C8 (witness): over the tens-digit comparison `ltd`, key 55 is
distinct from but comparator-equal to the stored key 51; inserting 55
overwrites node 0's value while `keym` still lists the original key 51. -/
theorem C8_key_untouched_witness :
    (Insert sE 55 (some 2)).2 = false ∧
    keym (Insert sE 55 (some 2)).1 = keym sE ∧
    keym sE = [51] ∧
    (getN (Insert sE 55 (some 2)).1 0).map (fun n => n.value) = some (some 2) := by
  have h := C8_key_untouched sE 55 (some 2) 0 (by decide)
  exact ⟨h.1, h.2.1, by decide, h.2.2⟩

/-- Claim C9: Find returns nil exactly when the key is absent or the found
node's stored Value is nil, so a nil result does not distinguish an absent
key from a present key mapped to a nil value. -/
theorem C9_find_nil (t : RbTree K V) (key : K) :
    Find t key = none ↔
      (FindNode t key = none ∨
        ∃ i, FindNode t key = some i ∧ valueAt t i = none) := by
  cases hf : FindNode t key with
  | none => simp [Find, hf]
  | some i =>
      cases hg : getN t i with
      | none => simp [Find, valueAt, hf, hg]
      | some n => simp [Find, valueAt, hf, hg]

/-- Claim C10: after Clear, Size is 0 and First, Last, FindNode and Find all
return nil for every key; Clear empties the map unconditionally. -/
theorem C10_clear (t : RbTree K V) (key : K) :
    Size (Clear t) = 0 ∧ First (Clear t) = none ∧ Last (Clear t) = none ∧
    FindNode (Clear t) key = none ∧ Find (Clear t) key = none := by
  exact ⟨rfl, rfl, rfl, rfl, rfl⟩

end rbt
